import Mathlib

/-!
Verification of the conversation turn-processing pipeline of the
Hebrew AI Agents platform.

Text is modelled as `List Char`.  The Hebrew normalizer/analyzer
(`hebrew-nlp` service), the agent engine (`agent-engine` service), the
vector store (`vector-store` service) and the Express conversation routes
are embedded as executable Lean functions that follow the TypeScript
source line by line.  External collaborators (the Qdrant index, the chat
model provider, the Prisma message store) are modelled as explicit
parameters or state, and the possible failures of external calls are made
explicit through a fault-injection record, so that the error-handling
structure of the source (which call sites catch, which rethrow) is
preserved exactly.
-/

/-! ## Characters used by the Hebrew NLP service -/

/-- The space character U+0020. -/
def spChar : Char := Char.ofNat 32

/-- Newline, used by the prompt-building string concatenations. -/
def nlChar : Char := Char.ofNat 10

/-- ASCII double quote, the replacement for Hebrew gershayim. -/
def dQuoteChar : Char := Char.ofNat 34

/-- ASCII apostrophe, the replacement for Hebrew geresh. -/
def aposChar : Char := Char.ofNat 39

/-- ASCII hyphen-minus, the replacement for Hebrew maqaf. -/
def hyphenChar : Char := Char.ofNat 45

/-- Hebrew punctuation gershayim U+05F4 (source: `״`). -/
def gershayimChar : Char := Char.ofNat 0x5F4

/-- Hebrew punctuation geresh U+05F3 (source: `׳`). -/
def gereshChar : Char := Char.ofNat 0x5F3

/-- Hebrew punctuation maqaf U+05BE (source: `־`). -/
def maqafChar : Char := Char.ofNat 0x5BE

/-- Hebrew letter kaf U+05DB. -/
def kafChar : Char := Char.ofNat 0x5DB

/-- Hebrew letter final kaf U+05DA. -/
def finalKafChar : Char := Char.ofNat 0x5DA

/-- Hebrew letter mem U+05DE. -/
def memChar : Char := Char.ofNat 0x5DE

/-- Hebrew letter final mem U+05DD. -/
def finalMemChar : Char := Char.ofNat 0x5DD

/-- Hebrew letter nun U+05E0. -/
def nunChar : Char := Char.ofNat 0x5E0

/-- Hebrew letter final nun U+05DF. -/
def finalNunChar : Char := Char.ofNat 0x5DF

/-- Hebrew letter pe U+05E4. -/
def peChar : Char := Char.ofNat 0x5E4

/-- Hebrew letter final pe U+05E3. -/
def finalPeChar : Char := Char.ofNat 0x5E3

/-- Hebrew letter tsadi U+05E6. -/
def tsadiChar : Char := Char.ofNat 0x5E6

/-- Hebrew letter final tsadi U+05E5. -/
def finalTsadiChar : Char := Char.ofNat 0x5E5

/-- Hebrew letter yod U+05D9. -/
def yodChar : Char := Char.ofNat 0x5D9

/-- Hebrew letter alef U+05D0. -/
def alefChar : Char := Char.ofNat 0x5D0

/-- Hebrew letter shin U+05E9. -/
def shinChar : Char := Char.ofNat 0x5E9

/-- Hebrew letter lamed U+05DC. -/
def lamedChar : Char := Char.ofNat 0x5DC

/-- Hebrew letter vav U+05D5. -/
def vavChar : Char := Char.ofNat 0x5D5

/-- JavaScript `\s` (the whitespace class used by `replace(/\s+/g, ' ')`
and by `String.prototype.trim`). -/
def isJsWs (c : Char) : Bool :=
  let n := c.toNat
  n == 9 || n == 10 || n == 11 || n == 12 || n == 13 || n == 32 ||
  n == 160 || n == 0x1680 || (0x2000 ≤ n && n ≤ 0x200A) ||
  n == 0x2028 || n == 0x2029 || n == 0x202F || n == 0x205F ||
  n == 0x3000 || n == 0xFEFF

/-- Membership in the Hebrew Unicode block, the test `/[֐-׿]/`
(U+0590–U+05FF) used by `isHebrewText` and by `fixFinalLetters`. -/
def isHebrewChar (c : Char) : Bool :=
  0x590 ≤ c.toNat && c.toNat ≤ 0x5FF

/-! ## `HebrewNLPService.normalizeHebrewText` and its pieces -/

/-- One pass of `text.replace(/\s+/g, ' ')`: every maximal whitespace run
becomes a single space.  The flag records whether the previous character
was part of a whitespace run already emitted as a space. -/
def collapseAux : Bool → List Char → List Char
  | _, [] => []
  | prevWs, c :: cs =>
    if isJsWs c then
      if prevWs then collapseAux true cs
      else spChar :: collapseAux true cs
    else c :: collapseAux false cs

/-- Remove trailing whitespace (the right half of `trim()`). -/
def trimRight : List Char → List Char
  | [] => []
  | c :: cs =>
    match trimRight cs with
    | [] => if isJsWs c then [] else [c]
    | r => c :: r

/-- `text.replace(/\s+/g, ' ').trim()` — the first normalization step of
`normalizeHebrewText`. -/
def collapseWsTrim (s : List Char) : List Char :=
  trimRight (List.dropWhile isJsWs (collapseAux false s))

/-- The character-for-character punctuation replacements
`.replace(/״/g, '"').replace(/׳/g, "'").replace(/־/g, '-')`. -/
def replacePunctChar (c : Char) : Char :=
  if c = gershayimChar then dQuoteChar
  else if c = gereshChar then aposChar
  else if c = maqafChar then hyphenChar
  else c

/-- The punctuation-replacement step of `normalizeHebrewText`. -/
def replacePunct (s : List Char) : List Char :=
  s.map replacePunctChar

/-- The `finalLetterMap` of `fixFinalLetters`: the five Hebrew letters
with a dedicated final form. -/
def finalForm (c : Char) : Option Char :=
  if c = kafChar then some finalKafChar
  else if c = memChar then some finalMemChar
  else if c = nunChar then some finalNunChar
  else if c = peChar then some finalPeChar
  else if c = tsadiChar then some finalTsadiChar
  else none

/-- The per-word body of `fixFinalLetters`, acting on the REVERSED word
so the last two characters are at the head.  For a word of length > 1,
when the second-to-last character has a final form and the last
character is not a Hebrew letter, the source rewrites
`word.slice(0, -2) + finalLetterMap[secondLastChar] + lastChar`. -/
def fixWordR : List Char → List Char
  | lastC :: sl :: rest =>
    match finalForm sl with
    | some f =>
      if isHebrewChar lastC then lastC :: sl :: rest
      else lastC :: f :: rest
    | none => lastC :: sl :: rest
  | w => w

/-- The per-word transformation of `fixFinalLetters`. -/
def fixWord (w : List Char) : List Char :=
  (fixWordR w.reverse).reverse

/-- JavaScript `text.split(' ')`: split on single spaces, keeping empty
segments; the result is never empty. -/
def splitSp : List Char → List (List Char)
  | [] => [[]]
  | c :: cs =>
    match splitSp cs with
    | [] => [[c]]
    | w :: ws => if c = spChar then [] :: w :: ws else (c :: w) :: ws

/-- JavaScript `words.join(' ')`. -/
def joinSp : List (List Char) → List Char
  | [] => []
  | [w] => w
  | w :: ws => w ++ spChar :: joinSp ws

/-- `HebrewNLPService.fixFinalLetters`:
`text.split(' ').map(word => ...).join(' ')`. -/
def fixFinalLetters (s : List Char) : List Char :=
  joinSp ((splitSp s).map fixWord)

/-- `HebrewNLPService.normalizeHebrewText`: whitespace collapse + trim,
then Hebrew punctuation replacement, then final-letter handling. -/
def normalizeHebrewText (s : List Char) : List Char :=
  fixFinalLetters (replacePunct (collapseWsTrim s))

/-- `HebrewNLPService.isHebrewText`: `/[֐-׿]/.test(text)`. -/
def isHebrewText (s : List Char) : Bool :=
  s.any isHebrewChar

example : fixFinalLetters [memChar, yodChar, memChar] =
    [memChar, yodChar, memChar] := by decide

example : fixFinalLetters [shinChar, lamedChar, vavChar, memChar, Char.ofNat 44] =
    [shinChar, lamedChar, vavChar, finalMemChar, Char.ofNat 44] := by decide

example : collapseWsTrim [spChar, Char.ofNat 97, Char.ofNat 9, Char.ofNat 9, Char.ofNat 98, spChar] =
    [Char.ofNat 97, spChar, Char.ofNat 98] := by decide


/-! ## Canonical whitespace shape

`canonAux true s` says: every whitespace character of `s` is a plain
space, and no space starts the text, follows another space, or ends the
text.  This is exactly the invariant established by
`replace(/\s+/g, ' ').trim()`, and the shape on which that step is the
identity. -/

/-- The head of `s`, if any, is not a space. -/
def headNotSpace : List Char → Bool
  | [] => true
  | c :: _ => !(c == spChar)

/-- Scan check: whitespace characters are spaces and no two are
adjacent. -/
def good : List Char → Bool
  | [] => true
  | c :: cs => (if isJsWs c then c == spChar && headNotSpace cs else true) && good cs

/-- Full canonical-whitespace check; the flag forbids a space as the
next character (at the start, or right after a space). -/
def canonAux : Bool → List Char → Bool
  | _, [] => true
  | noSp, c :: cs =>
    if isJsWs c then (c == spChar && !noSp && !cs.isEmpty) && canonAux true cs
    else canonAux false cs

theorem trimRight_cons (c : Char) (cs : List Char) :
    trimRight (c :: cs) =
      match trimRight cs with
      | [] => if isJsWs c then [] else [c]
      | r => c :: r := rfl

theorem canonAux_cons (b : Bool) (c : Char) (cs : List Char) :
    canonAux b (c :: cs) =
      if isJsWs c then (c == spChar && !b && !cs.isEmpty) && canonAux true cs
      else canonAux false cs := rfl

theorem collapseAux_cons (b : Bool) (c : Char) (cs : List Char) :
    collapseAux b (c :: cs) =
      if isJsWs c then
        if b then collapseAux true cs else spChar :: collapseAux true cs
      else c :: collapseAux false cs := rfl

theorem good_cons (c : Char) (cs : List Char) :
    good (c :: cs) =
      ((if isJsWs c then c == spChar && headNotSpace cs else true) && good cs) := rfl

theorem collapseAux_eq_self : ∀ s : List Char,
    (canonAux true s = true → ∀ b, collapseAux b s = s) ∧
    (canonAux false s = true → collapseAux false s = s) := by
  intro s
  induction s with
  | nil => exact ⟨fun _ _ => rfl, fun _ => rfl⟩
  | cons c cs ih =>
    cases hw : isJsWs c with
    | false =>
      constructor
      · intro h b
        rw [canonAux_cons, hw] at h
        simp only [Bool.false_eq_true, if_false] at h
        simp [collapseAux_cons, hw, ih.2 h]
      · intro h
        rw [canonAux_cons, hw] at h
        simp only [Bool.false_eq_true, if_false] at h
        simp [collapseAux_cons, hw, ih.2 h]
    | true =>
      constructor
      · intro h b
        rw [canonAux_cons, hw] at h
        simp at h
      · intro h
        rw [canonAux_cons, hw] at h
        simp only [if_true, Bool.not_false, Bool.and_true,
          Bool.and_eq_true, beq_iff_eq] at h
        obtain ⟨⟨hc, _⟩, hcs⟩ := h
        subst hc
        simp [collapseAux_cons, hw, ih.1 hcs true]

theorem dropWhile_eq_self_of_canon (s : List Char)
    (h : canonAux true s = true) : List.dropWhile isJsWs s = s := by
  cases s with
  | nil => rfl
  | cons c cs =>
    cases hw : isJsWs c with
    | false => simp [List.dropWhile, hw]
    | true => simp [canonAux, hw] at h

theorem canonAux_getLast : ∀ (s : List Char) (b : Bool) (c : Char),
    canonAux b s = true → s.getLast? = some c → isJsWs c = false := by
  intro s
  induction s with
  | nil => intro b c _ h; simp at h
  | cons d cs ih =>
    intro b c h hl
    cases cs with
    | nil =>
      have hdc : d = c := by simpa using hl
      subst hdc
      cases hw : isJsWs d with
      | false => rfl
      | true => simp [canonAux, hw] at h
    | cons e cs' =>
      rw [List.getLast?_cons_cons] at hl
      cases hw : isJsWs d with
      | false =>
        rw [canonAux_cons, hw] at h
        simp only [Bool.false_eq_true, if_false] at h
        exact ih false c h hl
      | true =>
        rw [canonAux_cons, hw] at h
        simp only [if_true, Bool.and_eq_true] at h
        exact ih true c h.2 hl

theorem trimRight_eq_self : ∀ s : List Char,
    (∀ c, s.getLast? = some c → isJsWs c = false) → trimRight s = s := by
  intro s
  induction s with
  | nil => intro _; rfl
  | cons c cs ih =>
    intro h
    cases cs with
    | nil =>
      have hc := h c (by simp)
      simp [trimRight, hc]
    | cons d cs' =>
      have hcs : trimRight (d :: cs') = d :: cs' := by
        apply ih
        intro e he
        exact h e (by rw [List.getLast?_cons_cons]; exact he)
      rw [trimRight_cons, hcs]

theorem canon_collapseWsTrim_id (s : List Char)
    (h : canonAux true s = true) : collapseWsTrim s = s := by
  unfold collapseWsTrim
  rw [(collapseAux_eq_self s).1 h false, dropWhile_eq_self_of_canon s h]
  exact trimRight_eq_self s (fun c hc => canonAux_getLast s true c h hc)

theorem collapseAux_true_head : ∀ (s : List Char) (c : Char),
    (collapseAux true s).head? = some c → isJsWs c = false := by
  intro s
  induction s with
  | nil => intro c h; simp [collapseAux] at h
  | cons d cs ih =>
    intro c h
    cases hw : isJsWs d with
    | true =>
      simp only [collapseAux, hw, if_true] at h
      exact ih c h
    | false =>
      simp only [collapseAux, hw, Bool.false_eq_true, if_false,
        List.head?_cons, Option.some.injEq] at h
      rw [← h]
      exact hw

theorem good_collapseAux : ∀ (s : List Char) (b : Bool),
    good (collapseAux b s) = true := by
  intro s
  induction s with
  | nil => intro b; rfl
  | cons c cs ih =>
    intro b
    cases hw : isJsWs c with
    | false =>
      simp only [collapseAux, hw, Bool.false_eq_true, if_false, good,
        Bool.and_eq_true]
      exact ⟨by simp [hw], ih false⟩
    | true =>
      cases b with
      | true => simp only [collapseAux, hw, if_true]; exact ih true
      | false =>
        simp only [collapseAux, hw, if_true, good, Bool.and_eq_true]
        refine ⟨?_, ih true⟩
        have hsp : isJsWs spChar = true := by decide
        simp only [hsp, if_true, Bool.and_eq_true, beq_self_eq_true,
          true_and]
        cases hy : collapseAux true cs with
        | nil => simp [headNotSpace]
        | cons y ys =>
          have hx : isJsWs y = false :=
            collapseAux_true_head cs y (by rw [hy]; rfl)
          simp only [headNotSpace, Bool.not_eq_true']
          apply beq_eq_false_iff_ne.mpr
          intro hxy
          rw [hxy] at hx
          rw [hsp] at hx
          exact Bool.true_eq_false.mp hx

theorem good_tail (c : Char) (cs : List Char) :
    good (c :: cs) = true → good cs = true := by
  rw [good_cons, Bool.and_eq_true]
  intro h
  exact h.2

theorem good_dropWhile (s : List Char) (h : good s = true) :
    good (List.dropWhile isJsWs s) = true := by
  induction s with
  | nil => exact h
  | cons c cs ih =>
    cases hw : isJsWs c with
    | true =>
      rw [List.dropWhile_cons_of_pos (by simp [hw])]
      exact ih (good_tail c cs h)
    | false =>
      rw [List.dropWhile_cons_of_neg (by simp [hw])]
      exact h

theorem head_dropWhile_notWs : ∀ (s : List Char) (c : Char),
    (List.dropWhile isJsWs s).head? = some c → isJsWs c = false := by
  intro s
  induction s with
  | nil => intro c h; simp at h
  | cons d cs ih =>
    intro c h
    cases hw : isJsWs d with
    | true =>
      rw [List.dropWhile_cons_of_pos (by simp [hw])] at h
      exact ih c h
    | false =>
      rw [List.dropWhile_cons_of_neg (by simp [hw])] at h
      simp only [List.head?_cons, Option.some.injEq] at h
      rw [← h]
      exact hw

theorem good_append_left : ∀ (xs ys : List Char),
    good (xs ++ ys) = true → good xs = true := by
  intro xs
  induction xs with
  | nil => intro ys _; rfl
  | cons c xs' ih =>
    intro ys h
    rw [List.cons_append, good_cons, Bool.and_eq_true] at h
    rw [good_cons, Bool.and_eq_true]
    refine ⟨?_, ih ys h.2⟩
    cases hw : isJsWs c with
    | false => simp [hw]
    | true =>
      have h1 := h.1
      rw [hw] at h1
      simp only [if_true, Bool.and_eq_true] at h1 ⊢
      refine ⟨h1.1, ?_⟩
      cases xs' with
      | nil => rfl
      | cons d xs'' =>
        rw [List.cons_append] at h1
        exact h1.2

theorem trimRight_isPre : ∀ s : List Char, ∃ t, s = trimRight s ++ t := by
  intro s
  induction s with
  | nil => exact ⟨[], rfl⟩
  | cons c cs ih =>
    obtain ⟨t, ht⟩ := ih
    cases hr : trimRight cs with
    | nil =>
      rw [trimRight_cons, hr]
      cases hw : isJsWs c with
      | true => exact ⟨c :: cs, by simp [hw]⟩
      | false => exact ⟨cs, by simp [hw]⟩
    | cons r rs =>
      rw [trimRight_cons, hr]
      refine ⟨t, ?_⟩
      rw [hr] at ht
      simp [ht]

theorem good_trimRight (s : List Char) (h : good s = true) :
    good (trimRight s) = true := by
  obtain ⟨t, ht⟩ := trimRight_isPre s
  rw [ht] at h
  exact good_append_left (trimRight s) t h

theorem trimRight_getLast_notWs : ∀ (s : List Char) (c : Char),
    (trimRight s).getLast? = some c → isJsWs c = false := by
  intro s
  induction s with
  | nil => intro c h; simp [trimRight] at h
  | cons d cs ih =>
    intro c h
    rw [trimRight_cons] at h
    cases hr : trimRight cs with
    | nil =>
      rw [hr] at h
      cases hw : isJsWs d with
      | true => simp [hw] at h
      | false =>
        simp only [hw, Bool.false_eq_true, if_false] at h
        have : d = c := by simpa using h
        rw [← this]
        exact hw
    | cons r rs =>
      rw [hr] at h
      rw [List.getLast?_cons_cons] at h
      rw [← hr] at h
      exact ih c h

theorem head_trimRight (s : List Char) (c : Char)
    (h : (trimRight s).head? = some c) : s.head? = some c := by
  obtain ⟨t, ht⟩ := trimRight_isPre s
  rw [ht]
  cases hr : trimRight s with
  | nil => rw [hr] at h; simp at h
  | cons r rs =>
    rw [hr] at h
    simp only [List.head?_cons, Option.some.injEq] at h
    simp [h]

theorem good_lastOk_canon : ∀ s : List Char, good s = true →
    (∀ c, s.getLast? = some c → isJsWs c = false) →
    ((∀ c, s.head? = some c → isJsWs c = false) → canonAux true s = true) ∧
    canonAux false s = true := by
  intro s
  induction s with
  | nil => exact fun _ _ => ⟨fun _ => rfl, rfl⟩
  | cons c cs ih =>
    intro hg hl
    have hgc : good cs = true := good_tail c cs hg
    have hlc : ∀ e, cs.getLast? = some e → isJsWs e = false := by
      intro e he
      cases cs with
      | nil => simp at he
      | cons d cs' => exact hl e (by rw [List.getLast?_cons_cons]; exact he)
    cases hw : isJsWs c with
    | false =>
      have hrec := (ih hgc hlc).2
      constructor
      · intro _
        rw [canonAux_cons, hw]
        simpa using hrec
      · rw [canonAux_cons, hw]
        simpa using hrec
    | true =>
      rw [good_cons, hw, Bool.and_eq_true] at hg
      have h1 := hg.1
      simp only [if_true, Bool.and_eq_true, beq_iff_eq] at h1
      obtain ⟨hcsp, hhns⟩ := h1
      constructor
      · intro hh
        have := hh c rfl
        rw [hw] at this
        exact absurd this (by simp)
      · rw [canonAux_cons, hw]
        have hcsne : cs ≠ [] := by
          intro hnil
          subst hnil
          have := hl c (by simp)
          rw [hw] at this
          exact absurd this (by simp)
        have hheadc : ∀ e, cs.head? = some e → isJsWs e = false := by
          intro e he
          cases cs with
          | nil => simp at he
          | cons d cs' =>
            have hde : d = e := by simpa using he
            subst hde
            simp only [headNotSpace, Bool.not_eq_true'] at hhns
            rw [good_cons, Bool.and_eq_true] at hgc
            cases hwd : isJsWs d with
            | false => rfl
            | true =>
              have h2 := hgc.1
              rw [hwd] at h2
              simp only [if_true, Bool.and_eq_true, beq_iff_eq] at h2
              rw [h2.1] at hhns
              simp at hhns
        have htr := (ih hgc hlc).1 hheadc
        simp only [if_true, Bool.and_eq_true]
        refine ⟨⟨?_, ?_⟩, htr⟩
        · simp [hcsp]
        · simpa using hcsne

theorem canon_collapseWsTrim : ∀ s : List Char,
    canonAux true (collapseWsTrim s) = true := by
  intro s
  unfold collapseWsTrim
  have hg : good (trimRight (List.dropWhile isJsWs (collapseAux false s))) = true :=
    good_trimRight _ (good_dropWhile _ (good_collapseAux s false))
  have hlast := trimRight_getLast_notWs (List.dropWhile isJsWs (collapseAux false s))
  have hhead : ∀ c,
      (trimRight (List.dropWhile isJsWs (collapseAux false s))).head? = some c →
      isJsWs c = false := by
    intro c hc
    exact head_dropWhile_notWs _ c (head_trimRight _ c hc)
  exact (good_lastOk_canon _ hg hlast).1 hhead

/-! ## Whitespace-pattern equivalence

The punctuation replacement and the final-letter rewrite replace
individual characters by characters with the same whitespace status, so
they preserve the canonical whitespace shape.  `chEq` is the pointwise
relation that `canonAux` cannot distinguish. -/

/-- Two characters indistinguishable to the whitespace scanner. -/
def chEq (c d : Char) : Prop :=
  isJsWs c = isJsWs d ∧ (c = spChar ↔ d = spChar)

instance (c d : Char) : Decidable (chEq c d) :=
  inferInstanceAs (Decidable (_ ∧ _))

theorem chEq_refl (c : Char) : chEq c c := ⟨rfl, Iff.rfl⟩

theorem forall₂_chEq_refl (s : List Char) : List.Forall₂ chEq s s :=
  List.forall₂_same.mpr (fun x _ => chEq_refl x)

theorem forall₂_chEq_append {a b c d : List Char}
    (h1 : List.Forall₂ chEq a b) (h2 : List.Forall₂ chEq c d) :
    List.Forall₂ chEq (a ++ c) (b ++ d) := by
  induction h1 with
  | nil => exact h2
  | cons hcd _ ih => exact List.Forall₂.cons hcd ih

theorem forall₂_chEq_reverse {s t : List Char}
    (h : List.Forall₂ chEq s t) :
    List.Forall₂ chEq s.reverse t.reverse := by
  induction h with
  | nil => exact List.Forall₂.nil
  | cons hcd _ ih =>
    rw [List.reverse_cons, List.reverse_cons]
    exact forall₂_chEq_append ih (List.Forall₂.cons hcd List.Forall₂.nil)

theorem forall₂_chEq_isEmpty {s t : List Char}
    (h : List.Forall₂ chEq s t) : s.isEmpty = t.isEmpty := by
  cases h with
  | nil => rfl
  | cons _ _ => rfl

theorem canonAux_congr {s t : List Char} (h : List.Forall₂ chEq s t) :
    ∀ b, canonAux b s = canonAux b t := by
  induction h with
  | nil => intro b; rfl
  | @cons c d cs ds hcd htl ih =>
    intro b
    rw [canonAux_cons, canonAux_cons, hcd.1]
    have hsp : (c == spChar) = (d == spChar) := by
      by_cases hc : c = spChar
      · rw [hc, (hcd.2.mp hc)]
      · have hd : ¬ d = spChar := fun hd => hc (hcd.2.mpr hd)
        simp [hc, hd]
    rw [hsp, forall₂_chEq_isEmpty htl, ih true, ih false]

theorem splitSp_cons (c : Char) (cs : List Char) :
    splitSp (c :: cs) =
      match splitSp cs with
      | [] => [[c]]
      | w :: ws => if c = spChar then [] :: w :: ws else (c :: w) :: ws := rfl

theorem splitSp_ne_nil : ∀ s : List Char, splitSp s ≠ [] := by
  intro s
  cases s with
  | nil => simp [splitSp]
  | cons c cs =>
    rw [splitSp_cons]
    cases h : splitSp cs with
    | nil => simp
    | cons w ws =>
      by_cases hc : c = spChar <;> simp [hc]

theorem joinSp_cons₂ (w x : List Char) (xs : List (List Char)) :
    joinSp (w :: x :: xs) = w ++ spChar :: joinSp (x :: xs) := rfl

theorem joinSp_splitSp : ∀ s : List Char, joinSp (splitSp s) = s := by
  intro s
  induction s with
  | nil => rfl
  | cons c cs ih =>
    cases hsp : splitSp cs with
    | nil => exact absurd hsp (splitSp_ne_nil cs)
    | cons w ws =>
      rw [hsp] at ih
      rw [splitSp_cons, hsp]
      by_cases hc : c = spChar
      · simp only [hc, if_true]
        rw [joinSp_cons₂]
        simp [ih]
      · simp only [hc, if_false]
        cases ws with
        | nil =>
          simp only [joinSp] at ih ⊢
          rw [ih]
        | cons x xs =>
          rw [joinSp_cons₂] at ih
          rw [joinSp_cons₂, List.cons_append, ih]

theorem joinSp_congr {L M : List (List Char)}
    (h : List.Forall₂ (List.Forall₂ chEq) L M) :
    List.Forall₂ chEq (joinSp L) (joinSp M) := by
  induction h with
  | nil => exact List.Forall₂.nil
  | @cons w m L' M' hwm htl ih =>
    cases htl with
    | nil => simpa [joinSp] using hwm
    | @cons x y L'' M'' hxy htl' =>
      rw [joinSp_cons₂, joinSp_cons₂]
      apply forall₂_chEq_append hwm
      apply List.Forall₂.cons (chEq_refl spChar)
      exact ih

theorem fixWordR_cons₂ (a b : Char) (rest : List Char) :
    fixWordR (a :: b :: rest) =
      match finalForm b with
      | some f => if isHebrewChar a then a :: b :: rest else a :: f :: rest
      | none => a :: b :: rest := rfl

theorem finalForm_chEq {c f : Char} (h : finalForm c = some f) : chEq c f := by
  by_cases h1 : c = kafChar
  · subst h1
    rw [(by decide : finalForm kafChar = some finalKafChar)] at h
    injection h with h
    subst h
    decide
  by_cases h2 : c = memChar
  · subst h2
    rw [(by decide : finalForm memChar = some finalMemChar)] at h
    injection h with h
    subst h
    decide
  by_cases h3 : c = nunChar
  · subst h3
    rw [(by decide : finalForm nunChar = some finalNunChar)] at h
    injection h with h
    subst h
    decide
  by_cases h4 : c = peChar
  · subst h4
    rw [(by decide : finalForm peChar = some finalPeChar)] at h
    injection h with h
    subst h
    decide
  by_cases h5 : c = tsadiChar
  · subst h5
    rw [(by decide : finalForm tsadiChar = some finalTsadiChar)] at h
    injection h with h
    subst h
    decide
  simp [finalForm, h1, h2, h3, h4, h5] at h

theorem fixWordR_chEq (w : List Char) : List.Forall₂ chEq w (fixWordR w) := by
  match w with
  | [] => exact List.Forall₂.nil
  | [c] => exact forall₂_chEq_refl [c]
  | lastC :: sl :: rest =>
    cases hf : finalForm sl with
    | none =>
      have he : fixWordR (lastC :: sl :: rest) = lastC :: sl :: rest := by
        rw [fixWordR_cons₂, hf]
      rw [he]
      exact forall₂_chEq_refl _
    | some f =>
      have he : fixWordR (lastC :: sl :: rest) =
          if isHebrewChar lastC then lastC :: sl :: rest
          else lastC :: f :: rest := by
        rw [fixWordR_cons₂, hf]
      rw [he]
      by_cases hh : isHebrewChar lastC
      · rw [if_pos hh]
        exact forall₂_chEq_refl _
      · rw [if_neg hh]
        exact List.Forall₂.cons (chEq_refl lastC)
          (List.Forall₂.cons (finalForm_chEq hf) (forall₂_chEq_refl rest))

theorem fixWord_chEq (w : List Char) : List.Forall₂ chEq w (fixWord w) := by
  have h := forall₂_chEq_reverse (fixWordR_chEq w.reverse)
  rw [List.reverse_reverse] at h
  exact h

theorem forall₂_map_fixWord (L : List (List Char)) :
    List.Forall₂ (List.Forall₂ chEq) L (L.map fixWord) := by
  induction L with
  | nil => exact List.Forall₂.nil
  | cons w L' ih => exact List.Forall₂.cons (fixWord_chEq w) ih

theorem fixFinal_chEq (s : List Char) :
    List.Forall₂ chEq s (fixFinalLetters s) := by
  have h := joinSp_congr (forall₂_map_fixWord (splitSp s))
  rwa [joinSp_splitSp] at h

theorem replacePunctChar_chEq (c : Char) : chEq c (replacePunctChar c) := by
  unfold replacePunctChar
  by_cases h1 : c = gershayimChar
  · rw [h1]; simp only [if_true]; decide
  · rw [if_neg h1]
    by_cases h2 : c = gereshChar
    · rw [h2]; simp only [if_true]; decide
    · rw [if_neg h2]
      by_cases h3 : c = maqafChar
      · rw [h3]; simp only [if_true]; decide
      · rw [if_neg h3]; exact chEq_refl c

theorem replacePunct_chEq (s : List Char) :
    List.Forall₂ chEq s (replacePunct s) := by
  induction s with
  | nil => exact List.Forall₂.nil
  | cons c cs ih => exact List.Forall₂.cons (replacePunctChar_chEq c) ih

theorem canon_normalize (s : List Char) :
    canonAux true (normalizeHebrewText s) = true := by
  unfold normalizeHebrewText
  rw [← canonAux_congr (fixFinal_chEq (replacePunct (collapseWsTrim s))) true]
  rw [← canonAux_congr (replacePunct_chEq (collapseWsTrim s)) true]
  exact canon_collapseWsTrim s

/-! ## Idempotence of the final-letter pass and the punctuation pass -/

theorem finalForm_eq_some {c f : Char} (h : finalForm c = some f) :
    (c = kafChar ∧ f = finalKafChar) ∨ (c = memChar ∧ f = finalMemChar) ∨
    (c = nunChar ∧ f = finalNunChar) ∨ (c = peChar ∧ f = finalPeChar) ∨
    (c = tsadiChar ∧ f = finalTsadiChar) := by
  by_cases h1 : c = kafChar
  · subst h1
    rw [(by decide : finalForm kafChar = some finalKafChar)] at h
    injection h with h
    exact Or.inl ⟨rfl, h.symm⟩
  by_cases h2 : c = memChar
  · subst h2
    rw [(by decide : finalForm memChar = some finalMemChar)] at h
    injection h with h
    exact Or.inr (Or.inl ⟨rfl, h.symm⟩)
  by_cases h3 : c = nunChar
  · subst h3
    rw [(by decide : finalForm nunChar = some finalNunChar)] at h
    injection h with h
    exact Or.inr (Or.inr (Or.inl ⟨rfl, h.symm⟩))
  by_cases h4 : c = peChar
  · subst h4
    rw [(by decide : finalForm peChar = some finalPeChar)] at h
    injection h with h
    exact Or.inr (Or.inr (Or.inr (Or.inl ⟨rfl, h.symm⟩)))
  by_cases h5 : c = tsadiChar
  · subst h5
    rw [(by decide : finalForm tsadiChar = some finalTsadiChar)] at h
    injection h with h
    exact Or.inr (Or.inr (Or.inr (Or.inr ⟨rfl, h.symm⟩)))
  simp [finalForm, h1, h2, h3, h4, h5] at h

theorem finalForm_of_finalForm {c f : Char} (h : finalForm c = some f) :
    finalForm f = none := by
  rcases finalForm_eq_some h with ⟨-, rfl⟩ | ⟨-, rfl⟩ | ⟨-, rfl⟩ | ⟨-, rfl⟩ | ⟨-, rfl⟩ <;>
    decide

theorem finalForm_some_ne_space {c f : Char} (h : finalForm c = some f) :
    f ≠ spChar := by
  rcases finalForm_eq_some h with ⟨-, rfl⟩ | ⟨-, rfl⟩ | ⟨-, rfl⟩ | ⟨-, rfl⟩ | ⟨-, rfl⟩ <;>
    decide

theorem finalForm_some_not_src {c f : Char} (h : finalForm c = some f) :
    f ≠ gershayimChar ∧ f ≠ gereshChar ∧ f ≠ maqafChar := by
  rcases finalForm_eq_some h with ⟨-, rfl⟩ | ⟨-, rfl⟩ | ⟨-, rfl⟩ | ⟨-, rfl⟩ | ⟨-, rfl⟩ <;>
    exact ⟨by decide, by decide, by decide⟩

theorem fixWordR_idem (w : List Char) : fixWordR (fixWordR w) = fixWordR w := by
  match w with
  | [] => rfl
  | [c] => rfl
  | a :: b :: rest =>
    cases hf : finalForm b with
    | none =>
      have he : fixWordR (a :: b :: rest) = a :: b :: rest := by
        rw [fixWordR_cons₂, hf]
      rw [he, he]
    | some f =>
      by_cases hh : isHebrewChar a
      · have he : fixWordR (a :: b :: rest) = a :: b :: rest := by
          rw [fixWordR_cons₂, hf]
          simp [hh]
        rw [he, he]
      · have he : fixWordR (a :: b :: rest) = a :: f :: rest := by
          rw [fixWordR_cons₂, hf]
          simp [hh]
        rw [he, fixWordR_cons₂, finalForm_of_finalForm hf]

theorem fixWord_idem (w : List Char) : fixWord (fixWord w) = fixWord w := by
  unfold fixWord
  rw [List.reverse_reverse, fixWordR_idem]

theorem mem_fixWordR {c : Char} {w : List Char} (h : c ∈ fixWordR w) :
    c ∈ w ∨ ∃ d, finalForm d = some c := by
  match w with
  | [] => exact Or.inl h
  | [a] => exact Or.inl h
  | a :: b :: rest =>
    cases hf : finalForm b with
    | none =>
      have he : fixWordR (a :: b :: rest) = a :: b :: rest := by
        rw [fixWordR_cons₂, hf]
      rw [he] at h
      exact Or.inl h
    | some f =>
      by_cases hh : isHebrewChar a
      · have he : fixWordR (a :: b :: rest) = a :: b :: rest := by
          rw [fixWordR_cons₂, hf]
          simp [hh]
        rw [he] at h
        exact Or.inl h
      · have he : fixWordR (a :: b :: rest) = a :: f :: rest := by
          rw [fixWordR_cons₂, hf]
          simp [hh]
        rw [he] at h
        rcases List.mem_cons.mp h with h1 | h1
        · exact Or.inl (by simp [h1])
        · rcases List.mem_cons.mp h1 with h2 | h2
          · exact Or.inr ⟨b, by rw [hf, h2]⟩
          · exact Or.inl (by simp [h2])

theorem mem_fixWord {c : Char} {w : List Char} (h : c ∈ fixWord w) :
    c ∈ w ∨ ∃ d, finalForm d = some c := by
  unfold fixWord at h
  rw [List.mem_reverse] at h
  rcases mem_fixWordR h with h1 | h1
  · exact Or.inl (List.mem_reverse.mp h1)
  · exact Or.inr h1

theorem no_space_fixWord {w : List Char} (h : spChar ∉ w) :
    spChar ∉ fixWord w := by
  intro hmem
  rcases mem_fixWord hmem with h1 | ⟨d, hd⟩
  · exact h h1
  · exact finalForm_some_ne_space hd rfl

theorem mem_splitSp_no_space : ∀ (s w : List Char),
    w ∈ splitSp s → spChar ∉ w := by
  intro s
  induction s with
  | nil =>
    intro w hw
    simp [splitSp] at hw
    simp [hw]
  | cons c cs ih =>
    intro w hw
    rw [splitSp_cons] at hw
    cases hx : splitSp cs with
    | nil => exact absurd hx (splitSp_ne_nil cs)
    | cons x xs =>
      rw [hx] at hw
      have hw' : w ∈ (if c = spChar then [] :: x :: xs else (c :: x) :: xs) := hw
      by_cases hc : c = spChar
      · rw [if_pos hc] at hw'
        rcases List.mem_cons.mp hw' with h1 | h1
        · simp [h1]
        · exact ih w (by rw [hx]; exact h1)
      · rw [if_neg hc] at hw'
        rcases List.mem_cons.mp hw' with h1 | h1
        · subst h1
          intro hsp
          rcases List.mem_cons.mp hsp with h2 | h2
          · exact hc h2.symm
          · exact ih x (by rw [hx]; exact List.mem_cons_self x xs) h2
        · exact ih w (by rw [hx]; exact List.mem_cons_of_mem x h1)

theorem splitSp_no_space_eq : ∀ w : List Char,
    spChar ∉ w → splitSp w = [w] := by
  intro w
  induction w with
  | nil => intro _; rfl
  | cons c w' ih =>
    intro h
    have hc : c ≠ spChar := fun hcc => h (by simp [hcc])
    have hw' : spChar ∉ w' := fun hm => h (List.mem_cons_of_mem c hm)
    rw [splitSp_cons, ih hw']
    simp [hc]

theorem splitSp_append_space : ∀ (w t : List Char), spChar ∉ w →
    splitSp (w ++ spChar :: t) = w :: splitSp t := by
  intro w
  induction w with
  | nil =>
    intro t _
    rw [List.nil_append, splitSp_cons]
    cases hx : splitSp t with
    | nil => exact absurd hx (splitSp_ne_nil t)
    | cons x xs => simp
  | cons c w' ih =>
    intro t h
    have hc : c ≠ spChar := fun hcc => h (by simp [hcc])
    have hw' : spChar ∉ w' := fun hm => h (List.mem_cons_of_mem c hm)
    rw [List.cons_append, splitSp_cons, ih t hw']
    simp [hc]

theorem splitSp_joinSp : ∀ L : List (List Char), L ≠ [] →
    (∀ w ∈ L, spChar ∉ w) → splitSp (joinSp L) = L := by
  intro L
  induction L with
  | nil => intro h _; exact absurd rfl h
  | cons w L' ih =>
    intro _ hns
    cases L' with
    | nil =>
      show splitSp (joinSp [w]) = [w]
      exact splitSp_no_space_eq w (hns w (by simp))
    | cons x xs =>
      rw [joinSp_cons₂, splitSp_append_space w _ (hns w (by simp))]
      rw [ih (by simp) (fun v hv => hns v (List.mem_cons_of_mem w hv))]

theorem fixFinal_idem (s : List Char) :
    fixFinalLetters (fixFinalLetters s) = fixFinalLetters s := by
  unfold fixFinalLetters
  have h1 : splitSp (joinSp ((splitSp s).map fixWord)) = (splitSp s).map fixWord := by
    apply splitSp_joinSp
    · intro hmap
      exact splitSp_ne_nil s (List.map_eq_nil_iff.mp hmap)
    · intro w hw
      rcases List.mem_map.mp hw with ⟨v, hv, rfl⟩
      exact no_space_fixWord (mem_splitSp_no_space s v hv)
  rw [h1, List.map_map]
  exact congrArg joinSp (List.map_congr_left (fun w _ => fixWord_idem w))

theorem replacePunctChar_eq_self {c : Char} (h1 : c ≠ gershayimChar)
    (h2 : c ≠ gereshChar) (h3 : c ≠ maqafChar) : replacePunctChar c = c := by
  unfold replacePunctChar
  rw [if_neg h1, if_neg h2, if_neg h3]

theorem replacePunct_eq_self {s : List Char}
    (h : ∀ c ∈ s, c ≠ gershayimChar ∧ c ≠ gereshChar ∧ c ≠ maqafChar) :
    replacePunct s = s := by
  unfold replacePunct
  have hid : ∀ c ∈ s, replacePunctChar c = id c := fun c hc =>
    replacePunctChar_eq_self (h c hc).1 (h c hc).2.1 (h c hc).2.2
  rw [List.map_congr_left hid, List.map_id]

theorem replacePunctChar_not_src (c : Char) :
    replacePunctChar c ≠ gershayimChar ∧ replacePunctChar c ≠ gereshChar ∧
    replacePunctChar c ≠ maqafChar := by
  unfold replacePunctChar
  by_cases h1 : c = gershayimChar
  · rw [if_pos h1]; exact ⟨by decide, by decide, by decide⟩
  rw [if_neg h1]
  by_cases h2 : c = gereshChar
  · rw [if_pos h2]; exact ⟨by decide, by decide, by decide⟩
  rw [if_neg h2]
  by_cases h3 : c = maqafChar
  · rw [if_pos h3]; exact ⟨by decide, by decide, by decide⟩
  rw [if_neg h3]
  exact ⟨h1, h2, h3⟩

theorem mem_joinSp : ∀ (L : List (List Char)) (c : Char),
    c ∈ joinSp L → (∃ w, w ∈ L ∧ c ∈ w) ∨ c = spChar := by
  intro L
  induction L with
  | nil => intro c h; simp [joinSp] at h
  | cons w L' ih =>
    intro c h
    cases L' with
    | nil => exact Or.inl ⟨w, by simp, h⟩
    | cons x xs =>
      rw [joinSp_cons₂] at h
      rcases List.mem_append.mp h with hw | hrest
      · exact Or.inl ⟨w, by simp, hw⟩
      · rcases List.mem_cons.mp hrest with hsp | hjoin
        · exact Or.inr hsp
        · rcases ih c hjoin with ⟨v, hv, hcv⟩ | hsp
          · exact Or.inl ⟨v, List.mem_cons_of_mem w hv, hcv⟩
          · exact Or.inr hsp

theorem mem_splitSp_mem : ∀ (s w : List Char),
    w ∈ splitSp s → ∀ c ∈ w, c ∈ s := by
  intro s
  induction s with
  | nil =>
    intro w hw c hc
    simp [splitSp] at hw
    subst hw
    simp at hc
  | cons a cs ih =>
    intro w hw c hc
    rw [splitSp_cons] at hw
    cases hx : splitSp cs with
    | nil => exact absurd hx (splitSp_ne_nil cs)
    | cons x xs =>
      rw [hx] at hw
      have hw' : w ∈ (if a = spChar then [] :: x :: xs else (a :: x) :: xs) := hw
      by_cases ha : a = spChar
      · rw [if_pos ha] at hw'
        rcases List.mem_cons.mp hw' with h1 | h1
        · subst h1; simp at hc
        · exact List.mem_cons_of_mem a (ih w (by rw [hx]; exact h1) c hc)
      · rw [if_neg ha] at hw'
        rcases List.mem_cons.mp hw' with h1 | h1
        · subst h1
          rcases List.mem_cons.mp hc with h2 | h2
          · simp [h2]
          · exact List.mem_cons_of_mem a
              (ih x (by rw [hx]; exact List.mem_cons_self x xs) c h2)
        · exact List.mem_cons_of_mem a
            (ih w (by rw [hx]; exact List.mem_cons_of_mem x h1) c hc)

theorem normalize_no_src (s : List Char) : ∀ c ∈ normalizeHebrewText s,
    c ≠ gershayimChar ∧ c ≠ gereshChar ∧ c ≠ maqafChar := by
  intro c hc
  unfold normalizeHebrewText fixFinalLetters at hc
  rcases mem_joinSp _ c hc with ⟨w, hw, hcw⟩ | hsp
  · rcases List.mem_map.mp hw with ⟨v, hv, rfl⟩
    rcases mem_fixWord hcw with hcv | ⟨d, hd⟩
    · have hcs : c ∈ replacePunct (collapseWsTrim s) :=
        mem_splitSp_mem _ v hv c hcv
      rcases List.mem_map.mp hcs with ⟨e, _, rfl⟩
      exact replacePunctChar_not_src e
    · exact finalForm_some_not_src hd
  · subst hsp
    exact ⟨by decide, by decide, by decide⟩

/-- C7: Hebrew normalization is idempotent — for every input string `x`,
`Normalize(Normalize(x)) == Normalize(x)`: whitespace collapse and trim,
Hebrew punctuation replacement and final-letter correction applied to
already-normalized text are a fixed point. -/
theorem C7_normalize_idempotent (s : List Char) :
    normalizeHebrewText (normalizeHebrewText s) = normalizeHebrewText s := by
  have hcanon := canon_normalize s
  show fixFinalLetters (replacePunct (collapseWsTrim (normalizeHebrewText s))) =
    normalizeHebrewText s
  rw [canon_collapseWsTrim_id _ hcanon]
  rw [replacePunct_eq_self (normalize_no_src s)]
  show fixFinalLetters (fixFinalLetters (replacePunct (collapseWsTrim s))) =
    normalizeHebrewText s
  exact fixFinal_idem _

/-- C6: the spec's test vector demands `FixFinalLetters("מימ") == "מים"`,
and the repository's own documentation (`docs/hebrew-processing.md`,
"normalizes final letters correctly") contains the same unit test.  The
source's `fixFinalLetters` only rewrites a word when its LAST character
is not a Hebrew letter, so the word mem-yod-mem (`"מימ"`), whose last
character is the Hebrew letter mem, is returned unchanged instead of
being corrected to mem-yod-finalmem (`"מים"`).  A word that already ends
with the correct final form is indeed returned unchanged. -/
theorem C6_fixFinalLetters_code_behavior :
    fixFinalLetters [memChar, yodChar, memChar] = [memChar, yodChar, memChar] ∧
    fixFinalLetters [memChar, yodChar, memChar] ≠ [memChar, yodChar, finalMemChar] ∧
    fixFinalLetters [memChar, yodChar, finalMemChar] =
      [memChar, yodChar, finalMemChar] := by decide

/-! ## Data model of the analyzer (`HebrewTextAnalysis` and friends) -/

/-- The `language` tag of an analysis (`'he'` / `'en'`). -/
inductive Lang
  | he
  | en
deriving DecidableEq

/-- Entity types of the `Entity` interface. -/
inductive EntityType
  | PERSON
  | LOCATION
  | ORGANIZATION
  | DATE
  | NUMBER
  | OTHER
deriving DecidableEq

/-- The `Entity` interface of the hebrew-nlp service. -/
structure Entity where
  text : List Char
  etype : EntityType
  startIndex : Nat
  endIndex : Nat
  confidence : Rat
deriving DecidableEq

/-- Sentiment labels. -/
inductive SentLabel
  | positive
  | negative
  | neutral
deriving DecidableEq

/-- The `SentimentResult` interface. -/
structure SentimentResult where
  score : Rat
  label : SentLabel
  confidence : Rat
deriving DecidableEq

/-- The `HebrewTextAnalysis` record.  The optional `nikud` field is
omitted: `enableNikud` defaults to false and no claim refers to it. -/
structure HebrewTextAnalysis where
  text : List Char
  normalizedText : List Char
  tokens : List (List Char)
  entities : List Entity
  sentiment : SentimentResult
  language : Lang
  isHebrew : Bool
deriving DecidableEq

/-! ## Entity extraction (`extractEntities` patterns) -/

theorem dropWhileLenLe (p : Char → Bool) (l : List Char) :
    (l.dropWhile p).length ≤ l.length :=
  (List.dropWhile_sublist p).length_le

/-- ASCII digit, the `\d` class. -/
def isDigitChar (c : Char) : Bool :=
  48 ≤ c.toNat && c.toNat ≤ 57

/-- The `/` of the date pattern. -/
def slashChar : Char := Char.ofNat 47

/-- The `[א-ת]` class (U+05D0–U+05EA) of the person pattern. -/
def isHebLetter (c : Char) : Bool :=
  0x5D0 ≤ c.toNat && c.toNat ≤ 0x5EA

/-- `exec` loop of `/\d+/g`: maximal digit runs with their start
offsets, scanned left to right without overlap. -/
def scanNumberRuns : Nat → List Char → List (Nat × List Char)
  | _, [] => []
  | i, c :: cs =>
    if isDigitChar c then
      (i, c :: cs.takeWhile isDigitChar) ::
        scanNumberRuns (i + (c :: cs.takeWhile isDigitChar).length)
          (cs.dropWhile isDigitChar)
    else scanNumberRuns (i + 1) cs
termination_by _ l => l.length
decreasing_by
  · exact Nat.lt_succ_of_le (dropWhileLenLe _ _)
  · exact Nat.lt_succ_self _

/-- Whether the text starts with the shape `\d{2}\/\d{2}\/\d{4}`. -/
def dateShape : List Char → Bool
  | d1 :: d2 :: s1 :: d3 :: d4 :: s2 :: d5 :: d6 :: d7 :: d8 :: _ =>
    isDigitChar d1 && isDigitChar d2 && (s1 == slashChar) &&
    isDigitChar d3 && isDigitChar d4 && (s2 == slashChar) &&
    isDigitChar d5 && isDigitChar d6 && isDigitChar d7 && isDigitChar d8
  | _ => false

/-- `exec` loop of `/\d{2}\/\d{2}\/\d{4}/g`. -/
def scanDates : Nat → List Char → List (Nat × List Char)
  | _, [] => []
  | i, c :: cs =>
    if dateShape (c :: cs) then
      (i, (c :: cs).take 10) :: scanDates (i + 10) ((c :: cs).drop 10)
    else scanDates (i + 1) cs
termination_by _ l => l.length
decreasing_by
  · simp only [List.length_drop, List.length_cons]
    omega
  · exact Nat.lt_succ_self _

/-- One match attempt of `/[א-ת]+ [א-ת]+/` at the head of the text:
a maximal Hebrew-letter run, a space, and a second maximal run.  Returns
the matched text and the remainder after the match. -/
def personAt (l : List Char) : Option (List Char × List Char) :=
  match l with
  | [] => none
  | c :: cs =>
    if isHebLetter c then
      match cs.dropWhile isHebLetter with
      | [] => none
      | s :: rest2 =>
        if s = spChar then
          match rest2 with
          | [] => none
          | d :: rest3 =>
            if isHebLetter d then
              some ((c :: cs.takeWhile isHebLetter) ++
                      spChar :: d :: rest3.takeWhile isHebLetter,
                    rest3.dropWhile isHebLetter)
            else none
        else none
    else none

theorem personAt_some_shorter {l m rest : List Char}
    (h : personAt l = some (m, rest)) : rest.length < l.length := by
  match l with
  | [] => simp [personAt] at h
  | c :: cs =>
    by_cases h1 : isHebLetter c
    · rw [personAt, if_pos h1] at h
      cases hdw : cs.dropWhile isHebLetter with
      | nil => rw [hdw] at h; simp at h
      | cons s rest2 =>
        rw [hdw] at h
        have h' : (if s = spChar then
            (match rest2 with
              | [] => (none : Option (List Char × List Char))
              | d :: rest3 =>
                if isHebLetter d then
                  some ((c :: cs.takeWhile isHebLetter) ++
                          spChar :: d :: rest3.takeWhile isHebLetter,
                        rest3.dropWhile isHebLetter)
                else none)
          else none) = some (m, rest) := h
        by_cases h2 : s = spChar
        · rw [if_pos h2] at h'
          cases rest2 with
          | nil => simp at h'
          | cons d rest3 =>
            have h'' : (if isHebLetter d then
                some ((c :: cs.takeWhile isHebLetter) ++
                        spChar :: d :: rest3.takeWhile isHebLetter,
                      rest3.dropWhile isHebLetter)
              else (none : Option (List Char × List Char))) = some (m, rest) := h'
            by_cases h3 : isHebLetter d
            · rw [if_pos h3] at h''
              injection h'' with h''
              injection h'' with hm hrest
              have hr3 : (rest3.dropWhile isHebLetter).length ≤ rest3.length :=
                dropWhileLenLe _ _
              have hcs : (cs.dropWhile isHebLetter).length ≤ cs.length :=
                dropWhileLenLe _ _
              rw [hdw] at hcs
              simp only [List.length_cons] at hcs
              rw [← hrest]
              simp only [List.length_cons]
              omega
            · rw [if_neg h3] at h''; exact absurd h'' (by simp)
        · rw [if_neg h2] at h'; exact absurd h' (by simp)
    · rw [personAt, if_neg h1] at h; exact absurd h (by simp)

/-- `exec` loop of `/[א-ת]+ [א-ת]+/g`. -/
def scanPersons : Nat → List Char → List (Nat × List Char)
  | _, [] => []
  | i, c :: cs =>
    match hp : personAt (c :: cs) with
    | some (m, rest) => (i, m) :: scanPersons (i + m.length) rest
    | none => scanPersons (i + 1) cs
termination_by _ l => l.length
decreasing_by
  · exact personAt_some_shorter hp
  · exact Nat.lt_succ_self _

/-- `HebrewNLPService.extractEntities`: the three patterns (date, number,
person) are each run over the whole text, in the order of the source's
`patterns` array, every match reported with confidence 0.8. -/
def extractEntities (t : List Char) : List Entity :=
  ((scanDates 0 t).map
      (fun p => Entity.mk p.2 EntityType.DATE p.1 (p.1 + p.2.length) 0.8)) ++
  ((scanNumberRuns 0 t).map
      (fun p => Entity.mk p.2 EntityType.NUMBER p.1 (p.1 + p.2.length) 0.8)) ++
  ((scanPersons 0 t).map
      (fun p => Entity.mk p.2 EntityType.PERSON p.1 (p.1 + p.2.length) 0.8))

/-- `text.split(/\s+/)` composed with the nonempty filter of
`tokenize`: the maximal non-whitespace runs of the text. -/
def wordsOf : List Char → List (List Char)
  | [] => []
  | c :: cs =>
    if isJsWs c then wordsOf cs
    else (c :: cs.takeWhile (fun d => !isJsWs d)) ::
      wordsOf (cs.dropWhile (fun d => !isJsWs d))
termination_by l => l.length
decreasing_by
  · exact Nat.lt_succ_self _
  · exact Nat.lt_succ_of_le (dropWhileLenLe _ _)

/-! ## Fault injection

The analyzer components, the vector search, the model call and the two
Prisma `message.create` calls are external or can fail internally.  A
`FaultSpec` fixes, for one run, which of these operations fail; the
embedded functions then follow exactly the try/catch structure of the
source: a component whose failure the source catches locally degrades,
one whose failure the source rethrows produces an `Except.error`. -/

structure FaultSpec where
  normFails : Bool
  tokenizeFails : Bool
  entitiesFails : Bool
  sentimentFails : Bool
  retrievalFails : Bool
  modelFails : Bool
  userAppendFails : Bool
  assistantAppendFails : Bool
deriving DecidableEq

/-- Errors that escape to a caller. -/
inductive PipelineError
  | hebrewAnalysisFailed
  | modelInvocationFailed
deriving DecidableEq

/-- `HebrewNLPService.tokenize`: its body splits on `/\s+/` and filters
empty tokens; its own catch falls back to `text.split(' ')`. -/
def tokenizeM (fs : FaultSpec) (t : List Char) : List (List Char) :=
  if fs.tokenizeFails then splitSp t else wordsOf t

/-- `HebrewNLPService.analyzeSentiment`: the body returns the neutral
placeholder with confidence 0.5; its own catch returns neutral with
confidence 0. -/
def analyzeSentimentM (fs : FaultSpec) : SentimentResult :=
  if fs.sentimentFails then SentimentResult.mk 0 SentLabel.neutral 0
  else SentimentResult.mk 0 SentLabel.neutral (1 / 2)

/-- `HebrewNLPService.extractEntities` with its own catch, which
returns `[]`. -/
def extractEntitiesM (fs : FaultSpec) (t : List Char) : List Entity :=
  if fs.entitiesFails then [] else extractEntities t

/-- `HebrewNLPService.analyzeText`.  The non-Hebrew path returns the
neutral analysis with the text split on single spaces.  On the Hebrew
path, `normalizeHebrewText` runs with NO local try/catch, so its failure
reaches `analyzeText`'s own catch — which logs and RETHROWS
(`logger.error(...); throw error`); tokenization, entity extraction and
sentiment each have internal catches and degrade. -/
def analyzeText (fs : FaultSpec) (t : List Char) :
    Except PipelineError HebrewTextAnalysis :=
  if isHebrewText t = false then
    Except.ok (HebrewTextAnalysis.mk t t (splitSp t) []
      (SentimentResult.mk 0 SentLabel.neutral 0) Lang.en false)
  else if fs.normFails then
    Except.error PipelineError.hebrewAnalysisFailed
  else
    Except.ok (HebrewTextAnalysis.mk t (normalizeHebrewText t)
      (tokenizeM fs (normalizeHebrewText t))
      (extractEntitiesM fs (normalizeHebrewText t))
      (analyzeSentimentM fs) Lang.he true)

/-! ## Message store and agent data model -/

/-- Prisma `MessageRole`. -/
inductive Role
  | USER
  | ASSISTANT
  | SYSTEM
  | FUNCTION
deriving DecidableEq

/-- A row of the Prisma `message` table (metadata omitted; no claim
refers to message metadata). -/
structure MessageRec where
  conversationId : Nat
  role : Role
  content : List Char
deriving DecidableEq

/-- The agent fields the engine reads: `id`, `model`, `prompt`. -/
structure AgentRec where
  id : List Char
  model : String
  prompt : List Char
deriving DecidableEq

/-- The `AgentContext` passed to `processMessage`. -/
structure AgentCtx where
  agent : AgentRec
  conversationId : Nat
  history : List MessageRec
  userInput : List Char
deriving DecidableEq

/-- LangChain message kinds used by `buildMessages`. -/
inductive ChatMsg
  | system (content : List Char)
  | user (content : List Char)
  | assistant (content : List Char)
deriving DecidableEq

/-- The `AgentResponse` produced by `postProcessResponse`
(`suggestedActions` and `metadata` omitted; no claim refers to them). -/
structure AgentResponse where
  content : List Char
  confidence : Rat
deriving DecidableEq

/-! ## Vector store (`VectorStore` + the Qdrant search semantics) -/

/-- A value of the simple filter object passed to `similaritySearch`
(a plain value or an array, cf. `Array.isArray` in
`buildQdrantFilter`). -/
inductive FVal
  | single (v : List Char)
  | many (vs : List (List Char))
deriving DecidableEq

/-- A Qdrant `match` condition. -/
inductive QMatch
  | value (v : List Char)
  | anyOf (vs : List (List Char))
deriving DecidableEq

/-- One entry of a Qdrant `must` list. -/
structure QCond where
  key : String
  cond : QMatch
deriving DecidableEq

/-- A stored point: id and payload (an association list of string
fields; `content` holds the chunk text, `agentId` the owning agent). -/
structure QPoint where
  pid : Nat
  payload : List (String × List Char)
deriving DecidableEq

/-- A search response entry (`{id, score, payload}`), as unpacked by
`similaritySearch` into `{id, score, pageContent, metadata}`. -/
structure SearchHit where
  hid : Nat
  score : Rat
  pageContent : List Char
  payload : List (String × List Char)
deriving DecidableEq

/-- `VectorStore.buildQdrantFilter`: each entry of the simple filter
object becomes one `must` condition — `{key, match: {any: value}}` for
arrays, `{key, match: {value}}` otherwise. -/
def buildQdrantFilter (filter : List (String × FVal)) : List QCond :=
  filter.map (fun kv =>
    match kv.2 with
    | FVal.single v => QCond.mk kv.1 (QMatch.value v)
    | FVal.many vs => QCond.mk kv.1 (QMatch.anyOf vs))

/-- Field lookup in a payload. -/
def payloadLookup (p : List (String × List Char)) (k : String) :
    Option (List Char) :=
  match p with
  | [] => none
  | kv :: rest => if kv.1 = k then some kv.2 else payloadLookup rest k

/-- Modelled from the spec: the vector index's `match` semantics —
a `value` condition holds when the payload field equals the value, an
`any` condition when it equals one of the listed values. -/
def matchesCond (p : QPoint) (c : QCond) : Bool :=
  match c.cond with
  | QMatch.value v => payloadLookup p.payload c.key == some v
  | QMatch.anyOf vs =>
    match payloadLookup p.payload c.key with
    | some x => vs.contains x
    | none => false

/-- A point satisfies a `must` list when it satisfies every condition. -/
def matchesFilter (conds : List QCond) (p : QPoint) : Bool :=
  conds.all (matchesCond p)

/-- Insertion step of the score-descending ordering. -/
def insertByScore (scoreOf : QPoint → Rat) (p : QPoint) :
    List QPoint → List QPoint
  | [] => [p]
  | q :: qs =>
    if scoreOf q ≤ scoreOf p then p :: q :: qs
    else q :: insertByScore scoreOf p qs

/-- Sort points by descending score. -/
def sortByScore (scoreOf : QPoint → Rat) : List QPoint → List QPoint
  | [] => []
  | p :: ps => insertByScore scoreOf p (sortByScore scoreOf ps)

/-- Modelled from the spec's external interface
`Search(vector, k, filter) -> [{id, score, payload}]`: the index returns
the top-`k` points satisfying the filter, ordered by descending score;
the score of a point against the query embedding is an abstract
function. -/
def qdrantSearch (scoreOf : QPoint → Rat) (points : List QPoint) (k : Nat)
    (filter : Option (List QCond)) : List SearchHit :=
  let matching :=
    match filter with
    | some conds => points.filter (matchesFilter conds)
    | none => points
  ((sortByScore scoreOf matching).take k).map
    (fun p => SearchHit.mk p.pid (scoreOf p)
      ((payloadLookup p.payload "content").getD []) p.payload)

/-- The environment of one pipeline run: the stored points, the
(query-dependent) scoring function of the index, and the
chat-completion provider. -/
structure PipelineEnv where
  points : List QPoint
  scoreOf : List Char → QPoint → Rat
  replyOf : String → List ChatMsg → List Char

/-- `VectorStore.similaritySearch`: embed the query (absorbed in
`scoreOf`), search with `limit` and the translated filter
(`undefined` stays absent). -/
def similaritySearchM (env : PipelineEnv) (query : List Char) (k : Nat)
    (filter : Option (List (String × FVal))) : List SearchHit :=
  qdrantSearch (env.scoreOf query) env.points k (filter.map buildQdrantFilter)

/-- `AgentEngine.getRelevantContext`: always searches with the filter
`{ agentId }` and returns the page contents; its own catch (vector or
embedding failure) returns `[]`. -/
def getRelevantContext (env : PipelineEnv) (fs : FaultSpec)
    (agentId query : List Char) (limit : Nat) : List (List Char) :=
  if fs.retrievalFails then []
  else
    (similaritySearchM env query limit
      (some [("agentId", FVal.single agentId)])).map
      (fun h => h.pageContent)

/-! ## Prompt assembly and the turn pipeline (`AgentEngine`) -/

/-- The Hebrew-specific system-prompt suffix appended by
`buildMessages` when the analysis is Hebrew. -/
def hebrewInstruction : List Char :=
  ("\n\nחשוב: המשתמש כותב בעברית. יש להשיב בעברית תקנית וברורה. שים לב לדקדוק נכון ולשימוש בסימני פיסוק מתאימים.").toList

/-- The knowledge-section header appended by `buildMessages` when
relevant documents were retrieved. -/
def knowledgeHeader : List Char :=
  ("\n\nמידע רלוונטי מבסיס הידע:\n").toList

/-- `relevantDocs.join('\n\n')`. -/
def joinNl2 : List (List Char) → List Char
  | [] => []
  | [d] => d
  | d :: ds => d ++ nlChar :: nlChar :: joinNl2 ds

/-- The system prompt assembled by `buildMessages`: the agent prompt,
plus the Hebrew instruction when the input is Hebrew, plus the
knowledge section when documents were retrieved. -/
def sysPromptOf (ctx : AgentCtx) (analysis : HebrewTextAnalysis)
    (docs : List (List Char)) : List Char :=
  (ctx.agent.prompt ++ (if analysis.isHebrew then hebrewInstruction else []))
    ++ (if 0 < docs.length then knowledgeHeader ++ joinNl2 docs else [])

/-- The role mapping of the history loop of `buildMessages`: USER and
ASSISTANT history entries are replayed, SYSTEM and FUNCTION entries are
skipped. -/
def histToChat (m : MessageRec) : Option ChatMsg :=
  if m.role = Role.USER then some (ChatMsg.user m.content)
  else if m.role = Role.ASSISTANT then some (ChatMsg.assistant m.content)
  else none

/-- `context.history.slice(-10)`: the last (up to) 10 entries. -/
def lastTen (hist : List MessageRec) : List MessageRec :=
  hist.drop (hist.length - 10)

/-- `AgentEngine.buildMessages`: one system message, the mapped last-10
history window, then one user message with the raw current input. -/
def buildMessages (ctx : AgentCtx) (analysis : HebrewTextAnalysis)
    (docs : List (List Char)) : List ChatMsg :=
  ChatMsg.system (sysPromptOf ctx analysis docs) ::
    ((lastTen ctx.history).filterMap histToChat ++ [ChatMsg.user ctx.userInput])

/-- Left-to-right override U+202D, inserted by `fixRTLFormatting`. -/
def lroChar : Char := Char.ofNat 0x202D

/-- Pop directional formatting U+202C. -/
def pdfChar : Char := Char.ofNat 0x202C

/-- `[a-zA-Z]`. -/
def isLatinLetter (c : Char) : Bool :=
  (65 ≤ c.toNat && c.toNat ≤ 90) || (97 ≤ c.toNat && c.toNat ≤ 122)

/-- One `replace(/(X+)/g, '‭$1‬')` pass: wrap every maximal
run of characters satisfying `p`. -/
def wrapRuns (p : Char → Bool) : List Char → List Char
  | [] => []
  | c :: cs =>
    if p c then
      lroChar :: (c :: cs.takeWhile p) ++ pdfChar :: wrapRuns p (cs.dropWhile p)
    else c :: wrapRuns p cs
termination_by l => l.length
decreasing_by
  · exact Nat.lt_succ_of_le (dropWhileLenLe _ _)
  · exact Nat.lt_succ_self _

/-- `AgentEngine.fixRTLFormatting`: wrap digit runs, then Latin-letter
runs, with LRO/PDF marks. -/
def fixRTLFormatting (t : List Char) : List Char :=
  wrapRuns isLatinLetter (wrapRuns isDigitChar t)

/-- `AgentEngine.postProcessResponse`: on the Hebrew path, fix RTL
formatting and re-normalize through `analyzeText` (whose failure is
rethrown by `processMessage`); confidence is the constant 0.95. -/
def postProcessResponse (fs : FaultSpec) (content : List Char)
    (isHeb : Bool) : Except PipelineError AgentResponse :=
  if isHeb then
    match analyzeText fs (fixRTLFormatting content) with
    | Except.error e => Except.error e
    | Except.ok a => Except.ok (AgentResponse.mk a.normalizedText 0.95)
  else Except.ok (AgentResponse.mk content 0.95)

/-- The model registry initialized by `initializeModels`. -/
def registryModels : List String :=
  ["gpt-4", "gpt-4-turbo-preview", "gpt-3.5-turbo"]

/-- `this.models.get(context.agent.model) || this.models.get('gpt-4')!`. -/
def chooseModel (m : String) : String :=
  if registryModels.contains m then m else "gpt-4"

/-- `model.invoke(messages)` against the chat-completion provider. -/
def invokeModel (fs : FaultSpec) (env : PipelineEnv) (m : String)
    (msgs : List ChatMsg) : Except PipelineError (List Char) :=
  if fs.modelFails then Except.error PipelineError.modelInvocationFailed
  else Except.ok (env.replyOf m msgs)

/-- The USER row written by `saveMessages`. -/
def mkUserMsg (ctx : AgentCtx) : MessageRec :=
  MessageRec.mk ctx.conversationId Role.USER ctx.userInput

/-- The ASSISTANT row written by `saveMessages`. -/
def mkAssistantMsg (ctx : AgentCtx) (content : List Char) : MessageRec :=
  MessageRec.mk ctx.conversationId Role.ASSISTANT content

/-- `AgentEngine.saveMessages`: two SEPARATE `prisma.message.create`
calls inside one `try` whose `catch` only logs
(`logger.error('Failed to save messages:', error)`).  If the USER
append fails nothing is written; if the ASSISTANT append fails the USER
row remains; in every case the error is swallowed and the caller sees a
normal return. -/
def saveMessages (fs : FaultSpec) (store : List MessageRec) (ctx : AgentCtx)
    (assistantContent : List Char) : List MessageRec :=
  if fs.userAppendFails then store
  else if fs.assistantAppendFails then store ++ [mkUserMsg ctx]
  else store ++ [mkUserMsg ctx, mkAssistantMsg ctx assistantContent]

/-- `AgentEngine.processMessage`: analyze (rethrow on failure), retrieve
context (degrade to `[]`), build messages, invoke the model (rethrow on
failure), post-process (rethrow on failure), save both messages
(errors swallowed), return the response.  The outer catch logs and
rethrows, so every `Except.error` reaches the caller unchanged. -/
def processMessage (fs : FaultSpec) (env : PipelineEnv) (ctx : AgentCtx)
    (store : List MessageRec) :
    Except PipelineError (AgentResponse × List MessageRec) :=
  match analyzeText fs ctx.userInput with
  | Except.error e => Except.error e
  | Except.ok analysis =>
    match invokeModel fs env (chooseModel ctx.agent.model)
        (buildMessages ctx analysis
          (getRelevantContext env fs ctx.agent.id analysis.normalizedText 5)) with
    | Except.error e => Except.error e
    | Except.ok raw =>
      match postProcessResponse fs raw analysis.isHebrew with
      | Except.error e => Except.error e
      | Except.ok resp =>
        Except.ok (resp, saveMessages fs store ctx resp.content)

/-! ## Conversation routes (`routes/conversations.ts`) -/

/-- Prisma `ConversationStatus`. -/
inductive ConvStatus
  | ACTIVE
  | PAUSED
  | ENDED
  | TRANSFERRED
deriving DecidableEq

/-- A row of the `conversation` table (metadata and timestamps omitted;
no claim refers to them). -/
structure ConvRec where
  id : Nat
  agent : AgentRec
  status : ConvStatus
deriving DecidableEq

/-- The persistence state the routes read and write. -/
structure DBState where
  convs : List ConvRec
  msgs : List MessageRec
deriving DecidableEq

/-- `prisma.conversation.findUnique({ where: { id } })`. -/
def findConv (db : DBState) (cid : Nat) : Option ConvRec :=
  db.convs.find? (fun c => c.id == cid)

/-- An `AppError` (HTTP status + message). -/
structure AppErrorRec where
  status : Nat
  message : String
deriving DecidableEq

/-- The messages of one conversation, in creation order. -/
def convMsgs (db : DBState) (cid : Nat) : List MessageRec :=
  db.msgs.filter (fun m => m.conversationId == cid)

/-- The history handed to the engine by `POST /:id/messages`:
`orderBy createdAt desc, take 20` then `.reverse()` — the last 20
messages in chronological order. -/
def convHistory (db : DBState) (cid : Nat) : List MessageRec :=
  (convMsgs db cid).drop ((convMsgs db cid).length - 20)

/-- `POST /api/conversations/:id/messages`: validate the body
(`content` non-empty), load the conversation, reject a missing
conversation with 404 and a non-ACTIVE one with 400
(`'Conversation is not active'`) BEFORE any engine work; otherwise run
`processMessage` and translate an engine failure into a 500
(`'Failed to process message'`), leaving the store untouched. -/
def postMessageRoute (fs : FaultSpec) (env : PipelineEnv) (db : DBState)
    (cid : Nat) (content : List Char) :
    Except AppErrorRec AgentResponse × DBState :=
  if content = [] then
    (Except.error (AppErrorRec.mk 400 "Validation failed"), db)
  else
    match findConv db cid with
    | none => (Except.error (AppErrorRec.mk 404 "Conversation not found"), db)
    | some conv =>
      if conv.status ≠ ConvStatus.ACTIVE then
        (Except.error (AppErrorRec.mk 400 "Conversation is not active"), db)
      else
        match processMessage fs env
            (AgentCtx.mk conv.agent cid (convHistory db cid) content) db.msgs with
        | Except.ok (resp, msgs2) => (Except.ok resp, DBState.mk db.convs msgs2)
        | Except.error _ =>
          (Except.error (AppErrorRec.mk 500 "Failed to process message"), db)

/-- The SYSTEM message content written by the transfer route:
`השיחה הועברה לנציג אנושי${reason ? `: ${reason}` : ''}`. -/
def transferSysContent (reason : Option (List Char)) : List Char :=
  ("השיחה הועברה לנציג אנושי").toList ++
    (match reason with
     | some r => Char.ofNat 58 :: spChar :: r
     | none => [])

/-- `PUT /api/conversations/:id/transfer`: load the conversation
(404 when missing) and then — with NO check of the current status —
set `status` to TRANSFERRED and append one SYSTEM message recording the
transfer. -/
def transferRoute (db : DBState) (cid : Nat) (reason : Option (List Char)) :
    Except AppErrorRec ConvRec × DBState :=
  match findConv db cid with
  | none => (Except.error (AppErrorRec.mk 404 "Conversation not found"), db)
  | some conv =>
    (Except.ok (ConvRec.mk conv.id conv.agent ConvStatus.TRANSFERRED),
     DBState.mk
       (db.convs.map (fun c =>
         if c.id == cid then ConvRec.mk c.id c.agent ConvStatus.TRANSFERRED
         else c))
       (db.msgs ++ [MessageRec.mk cid Role.SYSTEM (transferSysContent reason)]))

/-! ## Helpers and concrete fixtures for the claims -/

/-- Whether an `Except` is a success. -/
def isOkE {ε α : Type} : Except ε α → Bool
  | Except.ok _ => true
  | Except.error _ => false

/-- Whether a chat message is a SYSTEM message. -/
def isSystemMsg : ChatMsg → Bool
  | ChatMsg.system _ => true
  | _ => false

/-- Trivial environment: empty index, constant scoring, empty replies. -/
def envTriv : PipelineEnv := PipelineEnv.mk [] (fun _ _ => 0) (fun _ _ => [])

/-- A minimal agent. -/
def agentA : AgentRec := AgentRec.mk [Char.ofNat 97] "gpt-4" []

/-- No faults. -/
def fsNone : FaultSpec := FaultSpec.mk false false false false false false false false

/-- Only normalization fails. -/
def fsNorm : FaultSpec := FaultSpec.mk true false false false false false false false

/-- Only the ASSISTANT append fails. -/
def fsAsst : FaultSpec := FaultSpec.mk false false false false false false false true

/-- Only the USER append fails. -/
def fsUser : FaultSpec := FaultSpec.mk false false false false false false true false

theorem histToChat_not_system {m : MessageRec} {cm : ChatMsg}
    (h : histToChat m = some cm) : isSystemMsg cm = false := by
  unfold histToChat at h
  by_cases h1 : m.role = Role.USER
  · rw [if_pos h1] at h
    injection h with h
    rw [← h]
    rfl
  rw [if_neg h1] at h
  by_cases h2 : m.role = Role.ASSISTANT
  · rw [if_pos h2] at h
    injection h with h
    rw [← h]
    rfl
  · rw [if_neg h2] at h
    exact absurd h (by simp)

/-- C5: `Assemble` (the source's `buildMessages`) yields exactly one
SYSTEM message first, then at most 10 history messages in their
original (chronological, oldest-first) relative order with SYSTEM-role
history entries excluded from replay, then exactly one trailing USER
message whose content equals the raw current input. -/
theorem C5_prompt_ordering (ctx : AgentCtx) (analysis : HebrewTextAnalysis)
    (docs : List (List Char)) :
    buildMessages ctx analysis docs =
      ChatMsg.system (sysPromptOf ctx analysis docs) ::
        ((lastTen ctx.history).filterMap histToChat ++
          [ChatMsg.user ctx.userInput]) ∧
    ((buildMessages ctx analysis docs).filter isSystemMsg).length = 1 ∧
    (buildMessages ctx analysis docs).getLast? =
      some (ChatMsg.user ctx.userInput) ∧
    ((lastTen ctx.history).filterMap histToChat).length ≤ 10 ∧
    (∀ m ∈ (lastTen ctx.history).filterMap histToChat,
      isSystemMsg m = false) ∧
    (∀ m ∈ ctx.history, m.role = Role.SYSTEM → histToChat m = none) ∧
    List.Sublist ((lastTen ctx.history).filterMap histToChat)
      (ctx.history.filterMap histToChat) := by
  have hmid : ∀ m ∈ (lastTen ctx.history).filterMap histToChat,
      isSystemMsg m = false := by
    intro m hm
    rcases List.mem_filterMap.mp hm with ⟨a, _, ha⟩
    exact histToChat_not_system ha
  refine ⟨rfl, ?_, ?_, ?_, hmid, ?_, ?_⟩
  · have hnil : ((lastTen ctx.history).filterMap histToChat ++
        [ChatMsg.user ctx.userInput]).filter isSystemMsg = [] := by
      rw [List.filter_eq_nil_iff]
      intro a ha
      rcases List.mem_append.mp ha with h1 | h1
      · simp [hmid a h1]
      · have : a = ChatMsg.user ctx.userInput := by simpa using h1
        subst this
        simp [isSystemMsg]
    show ((ChatMsg.system (sysPromptOf ctx analysis docs) ::
      ((lastTen ctx.history).filterMap histToChat ++
        [ChatMsg.user ctx.userInput])).filter isSystemMsg).length = 1
    rw [List.filter_cons_of_pos (by rfl), hnil]
    rfl
  · show (ChatMsg.system (sysPromptOf ctx analysis docs) ::
      ((lastTen ctx.history).filterMap histToChat ++
        [ChatMsg.user ctx.userInput])).getLast? =
      some (ChatMsg.user ctx.userInput)
    rw [show ChatMsg.system (sysPromptOf ctx analysis docs) ::
      ((lastTen ctx.history).filterMap histToChat ++
        [ChatMsg.user ctx.userInput]) =
      (ChatMsg.system (sysPromptOf ctx analysis docs) ::
        (lastTen ctx.history).filterMap histToChat) ++
        [ChatMsg.user ctx.userInput] from by simp]
    exact List.getLast?_concat _
  · calc ((lastTen ctx.history).filterMap histToChat).length
        ≤ (lastTen ctx.history).length := List.length_filterMap_le _ _
      _ ≤ 10 := by
        unfold lastTen
        rw [List.length_drop]
        omega
  · intro m _ hrole
    unfold histToChat
    rw [hrole]
    simp
  · exact List.Sublist.filterMap histToChat (List.drop_sublist _ _)

/-! ## C4: agent-scoped retrieval -/

theorem mem_insertByScore {scoreOf : QPoint → Rat} {p q : QPoint} :
    ∀ {l : List QPoint}, q ∈ insertByScore scoreOf p l → q = p ∨ q ∈ l := by
  intro l
  induction l with
  | nil =>
    intro h
    simp [insertByScore] at h
    exact Or.inl h
  | cons x xs ih =>
    intro h
    unfold insertByScore at h
    by_cases hc : scoreOf x ≤ scoreOf p
    · rw [if_pos hc] at h
      rcases List.mem_cons.mp h with h1 | h1
      · exact Or.inl h1
      · exact Or.inr h1
    · rw [if_neg hc] at h
      rcases List.mem_cons.mp h with h1 | h1
      · exact Or.inr (by simp [h1])
      · rcases ih h1 with h2 | h2
        · exact Or.inl h2
        · exact Or.inr (List.mem_cons_of_mem x h2)

theorem mem_sortByScore {scoreOf : QPoint → Rat} {q : QPoint} :
    ∀ {l : List QPoint}, q ∈ sortByScore scoreOf l → q ∈ l := by
  intro l
  induction l with
  | nil => intro h; exact h
  | cons x xs ih =>
    intro h
    unfold sortByScore at h
    rcases mem_insertByScore h with h1 | h1
    · simp [h1]
    · exact List.mem_cons_of_mem x (ih h1)

/-- C4: retrieval is always agent-scoped.  `getRelevantContext` issues
`similaritySearch(query, limit, { agentId })`, which translates the
filter through `buildQdrantFilter` into a mandatory `must` condition on
`agentId`; every hit the index returns therefore carries the querying
agent's id in its payload, and no hit can carry the id of a different
agent `bid ≠ aid`.  The chunks `getRelevantContext` yields are exactly
the page contents of those hits (or `[]` when retrieval failed and was
degraded). -/
theorem C4_retrieval_scoped (env : PipelineEnv) (fs : FaultSpec)
    (aid query : List Char) (k : Nat) (hit : SearchHit)
    (hmem : hit ∈ similaritySearchM env query k
      (some [("agentId", FVal.single aid)])) :
    payloadLookup hit.payload "agentId" = some aid ∧
    (∀ bid, payloadLookup hit.payload "agentId" = some bid → bid = aid) ∧
    (getRelevantContext env fs aid query k = [] ∨
     getRelevantContext env fs aid query k =
       (similaritySearchM env query k
         (some [("agentId", FVal.single aid)])).map
         (fun h => h.pageContent)) := by
  have h1 : payloadLookup hit.payload "agentId" = some aid := by
    unfold similaritySearchM qdrantSearch at hmem
    rcases List.mem_map.mp hmem with ⟨p, hp, rfl⟩
    have hp3 := mem_sortByScore (List.mem_of_mem_take hp)
    have hp4 := List.of_mem_filter hp3
    simp only [matchesFilter, buildQdrantFilter, List.map_cons, List.map_nil,
      List.all_cons, List.all_nil, Bool.and_true, matchesCond,
      beq_iff_eq] at hp4
    exact hp4
  refine ⟨h1, ?_, ?_⟩
  · intro bid hb
    rw [h1] at hb
    injection hb with hb
    exact hb.symm
  · unfold getRelevantContext
    by_cases hf : fs.retrievalFails
    · exact Or.inl (by rw [if_pos hf])
    · exact Or.inr (by rw [if_neg hf])

/-- Chunk content of the agent-A point of the witness index. -/
def chunkA : List Char := [Char.ofNat 120]

/-- Agent-A id. -/
def aChars : List Char := [Char.ofNat 97]

/-- Agent-B id. -/
def bChars : List Char := [Char.ofNat 98]

/-- A point owned by agent A. -/
def pA : QPoint := QPoint.mk 1 [("agentId", aChars), ("content", chunkA)]

/-- A point owned by agent B. -/
def pB : QPoint := QPoint.mk 2 [("agentId", bChars), ("content", [Char.ofNat 121])]

/-- An index holding documents of both agents. -/
def envC4 : PipelineEnv := PipelineEnv.mk [pA, pB] (fun _ _ => 0) (fun _ _ => [])

/-- The hit returned for agent A's query. -/
def hitA : SearchHit := SearchHit.mk 1 0 chunkA pA.payload

theorem C4_retrieval_scoped_witness :
    (hitA ∈ similaritySearchM envC4 aChars 5
      (some [("agentId", FVal.single aChars)])) ∧
    payloadLookup hitA.payload "agentId" = some aChars := by
  refine ⟨by decide, ?_⟩
  exact (C4_retrieval_scoped envC4 fsNone aChars aChars 5 hitA (by decide)).1

/-! ## C3: analysis failures and the pipeline -/

/-- C3 as stated: for every input and every internal-failure scenario,
`analyzeText` degrades to a successful (neutral) analysis and never
surfaces an error. -/
def C3Prop : Prop :=
  ∀ (fs : FaultSpec) (t : List Char), isOkE (analyzeText fs t) = true

/-- C3 counterexample: with a failing normalization step on the Hebrew
input alef, `analyzeText` returns an error (its catch block rethrows),
so the claimed property is false. -/
theorem C3_counterexample : ¬ C3Prop := fun h =>
  absurd (h fsNorm [alefChar]) (by decide)

theorem analyzeText_ok_no_norm (fs : FaultSpec) (h : fs.normFails = false)
    (t : List Char) : ∃ a, analyzeText fs t = Except.ok a := by
  unfold analyzeText
  by_cases hh : isHebrewText t = false
  · rw [if_pos hh]
    exact ⟨_, rfl⟩
  · rw [if_neg hh]
    simp only [h, Bool.false_eq_true, if_false]
    exact ⟨_, rfl⟩

theorem postProcess_ok (fs : FaultSpec) (h : fs.normFails = false)
    (content : List Char) (isHeb : Bool) :
    ∃ r, postProcessResponse fs content isHeb = Except.ok r := by
  unfold postProcessResponse
  by_cases hh : isHeb = true
  · rw [if_pos hh]
    obtain ⟨a, ha⟩ := analyzeText_ok_no_norm fs h (fixRTLFormatting content)
    rw [ha]
    exact ⟨_, rfl⟩
  · rw [if_neg hh]
    exact ⟨_, rfl⟩

theorem processMessage_ok_shape (fs : FaultSpec) (h1 : fs.normFails = false)
    (h2 : fs.modelFails = false) (env : PipelineEnv) (ctx : AgentCtx)
    (store : List MessageRec) :
    ∃ res, processMessage fs env ctx store =
      Except.ok (res, saveMessages fs store ctx res.content) := by
  obtain ⟨a, ha⟩ := analyzeText_ok_no_norm fs h1 ctx.userInput
  have hi : invokeModel fs env (chooseModel ctx.agent.model)
      (buildMessages ctx a
        (getRelevantContext env fs ctx.agent.id a.normalizedText 5)) =
      Except.ok (env.replyOf (chooseModel ctx.agent.model)
        (buildMessages ctx a
          (getRelevantContext env fs ctx.agent.id a.normalizedText 5))) := by
    unfold invokeModel
    simp only [h2, Bool.false_eq_true, if_false]
  obtain ⟨r, hr⟩ := postProcess_ok fs h1
    (env.replyOf (chooseModel ctx.agent.model)
      (buildMessages ctx a
        (getRelevantContext env fs ctx.agent.id a.normalizedText 5)))
    a.isHebrew
  refine ⟨r, ?_⟩
  simp only [processMessage, ha, hi, hr]

/-- C3 amended: failures inside tokenization, entity extraction and
sentiment are caught by the components' own catch blocks and degrade
(for every input, `analyzeText` still succeeds under any combination of
those three failures, and under retrieval/model/persistence faults,
which it does not touch); but a failure of normalization, which has no
local catch, is rethrown by `analyzeText`'s outer catch and propagates
unchanged through `processMessage` to its caller on every Hebrew
input. -/
theorem C3_analysis_failure_propagates :
    (∀ (tf ef sf rf mf uf af : Bool) (t : List Char),
      isOkE (analyzeText (FaultSpec.mk false tf ef sf rf mf uf af) t) = true) ∧
    (∀ (env : PipelineEnv) (ctx : AgentCtx) (store : List MessageRec),
      isHebrewText ctx.userInput = true →
      processMessage fsNorm env ctx store =
        Except.error PipelineError.hebrewAnalysisFailed) := by
  constructor
  · intro tf ef sf rf mf uf af t
    obtain ⟨a, ha⟩ :=
      analyzeText_ok_no_norm (FaultSpec.mk false tf ef sf rf mf uf af) rfl t
    rw [ha]
    rfl
  · intro env ctx store hheb
    have ha : analyzeText fsNorm ctx.userInput =
        Except.error PipelineError.hebrewAnalysisFailed := by
      unfold analyzeText
      rw [hheb]
      simp [fsNorm]
    simp only [processMessage, ha]

/-- A Hebrew single-utterance context. -/
def ctxHeb : AgentCtx := AgentCtx.mk agentA 0 [] [alefChar]

theorem C3_analysis_failure_propagates_witness :
    isHebrewText ctxHeb.userInput = true ∧
    processMessage fsNorm envTriv ctxHeb [] =
      Except.error PipelineError.hebrewAnalysisFailed := by
  refine ⟨by decide, ?_⟩
  exact C3_analysis_failure_propagates.2 envTriv ctxHeb [] (by decide)

/-! ## C1: turn persistence -/

/-- C1 as stated: whenever `processMessage` reports success, the USER
and the ASSISTANT message were both appended (both-or-neither, and a
persistence failure is surfaced to the caller as a non-success). -/
def C1Prop : Prop :=
  ∀ (fs : FaultSpec) (env : PipelineEnv) (ctx : AgentCtx)
    (store : List MessageRec) (res : AgentResponse)
    (store2 : List MessageRec),
    processMessage fs env ctx store = Except.ok (res, store2) →
    store2 = store ++ [mkUserMsg ctx, mkAssistantMsg ctx res.content]

/-- A plain non-Hebrew context ("hi"). -/
def ctxHi : AgentCtx := AgentCtx.mk agentA 0 [] [Char.ofNat 104, Char.ofNat 105]

/-- C1 counterexample: when the ASSISTANT `message.create` fails after
the USER one succeeded, `saveMessages` swallows the error, the USER row
alone is visible on re-read, and `processMessage` still returns the
generated response as a success — refuting both the both-or-neither
property and the claim that the caller is informed. -/
theorem C1_counterexample : ¬ C1Prop := by
  intro h
  have heval : processMessage fsAsst envTriv ctxHi [] =
      Except.ok (AgentResponse.mk [] 0.95, [mkUserMsg ctxHi]) := by rfl
  have := h fsAsst envTriv ctxHi [] (AgentResponse.mk [] 0.95)
    [mkUserMsg ctxHi] heval
  simp at this

/-- C1 amended: persistence is two separate appends whose errors are
swallowed by `saveMessages`' catch.  For every environment, context and
prior store: if the ASSISTANT append fails, `processMessage` still
returns success and the re-read store shows the USER message alone; if
the USER append fails, `processMessage` still returns success and the
store is unchanged.  The caller is never informed. -/
theorem C1_saveMessages_swallows_failures (env : PipelineEnv)
    (ctx : AgentCtx) (store : List MessageRec) :
    (∃ res, processMessage fsAsst env ctx store =
      Except.ok (res, store ++ [mkUserMsg ctx])) ∧
    (∃ res, processMessage fsUser env ctx store = Except.ok (res, store)) := by
  obtain ⟨r1, h1⟩ := processMessage_ok_shape fsAsst rfl rfl env ctx store
  obtain ⟨r2, h2⟩ := processMessage_ok_shape fsUser rfl rfl env ctx store
  exact ⟨⟨r1, h1⟩, ⟨r2, h2⟩⟩

/-! ## C2: conversation transfer -/

/-- C2 as stated (the guarded part): invoking the transfer route on a
conversation that is already non-ACTIVE (terminal) does not append a
second transfer record — the store is left unchanged. -/
def C2Prop : Prop :=
  ∀ (db : DBState) (cid : Nat) (reason : Option (List Char)) (conv : ConvRec),
    findConv db cid = some conv → conv.status ≠ ConvStatus.ACTIVE →
    (transferRoute db cid reason).2 = db

/-- A database whose single conversation is already TRANSFERRED. -/
def dbTrans : DBState :=
  DBState.mk [ConvRec.mk 0 agentA ConvStatus.TRANSFERRED] []

/-- C2 counterexample: the transfer route performs no status check, so
calling it on the already-TRANSFERRED conversation appends another
SYSTEM transfer record, changing the store. -/
theorem C2_counterexample : ¬ C2Prop := by
  intro h
  have := h dbTrans 0 none (ConvRec.mk 0 agentA ConvStatus.TRANSFERRED)
    (by decide) (by decide)
  exact absurd this (by decide)

/-- C2 amended: `TransferConversation` has no lifecycle guard.  For any
conversation present in the store — whatever its current status,
including the terminal ENDED and TRANSFERRED — the route sets the
status to TRANSFERRED and appends exactly one SYSTEM message recording
the transfer, and reports success.  In particular a second invocation
on the now-terminal conversation appends a second transfer record, and
invoking it on an ENDED conversation moves the status out of the
terminal state.  (On an ACTIVE conversation the single-call behaviour
the claim describes does hold.) -/
theorem C2_transfer_unguarded (db : DBState) (cid : Nat)
    (reason : Option (List Char)) (conv : ConvRec)
    (h : findConv db cid = some conv) :
    (transferRoute db cid reason).2.msgs =
      db.msgs ++ [MessageRec.mk cid Role.SYSTEM (transferSysContent reason)] ∧
    (∀ c ∈ (transferRoute db cid reason).2.convs,
      c.id = cid → c.status = ConvStatus.TRANSFERRED) ∧
    (transferRoute db cid reason).1 =
      Except.ok (ConvRec.mk conv.id conv.agent ConvStatus.TRANSFERRED) := by
  refine ⟨?_, ?_, ?_⟩
  · simp only [transferRoute, h]
  · intro c hc hcid
    simp only [transferRoute, h] at hc
    rcases List.mem_map.mp hc with ⟨c0, _, rfl⟩
    by_cases h0 : c0.id == cid
    · rw [if_pos h0]
    · rw [if_neg h0] at hcid ⊢
      rw [hcid] at h0
      simp at h0
  · simp only [transferRoute, h]

/-- A database whose single conversation is ACTIVE. -/
def dbAct : DBState := DBState.mk [ConvRec.mk 0 agentA ConvStatus.ACTIVE] []

theorem C2_transfer_unguarded_witness :
    findConv dbAct 0 = some (ConvRec.mk 0 agentA ConvStatus.ACTIVE) ∧
    (transferRoute dbAct 0 none).2.msgs =
      dbAct.msgs ++ [MessageRec.mk 0 Role.SYSTEM (transferSysContent none)] := by
  refine ⟨by decide, ?_⟩
  exact (C2_transfer_unguarded dbAct 0 none
    (ConvRec.mk 0 agentA ConvStatus.ACTIVE) (by decide)).1

/-! ## C8: non-ACTIVE conversations reject new turns -/

/-- C8: submitting a turn with non-empty content to an existing
conversation whose status is not ACTIVE is rejected immediately with
the 400 validation error `'Conversation is not active'`; the engine is
never invoked and the store (in particular the conversation's messages)
is returned unchanged. -/
theorem C8_nonactive_rejects_turn (fs : FaultSpec) (env : PipelineEnv)
    (db : DBState) (cid : Nat) (content : List Char) (conv : ConvRec)
    (hc : content ≠ [])
    (hfind : findConv db cid = some conv)
    (hstatus : conv.status ≠ ConvStatus.ACTIVE) :
    postMessageRoute fs env db cid content =
      (Except.error (AppErrorRec.mk 400 "Conversation is not active"), db) := by
  simp only [postMessageRoute, if_neg hc, hfind]
  rw [if_pos hstatus]

/-- A database whose single conversation is ENDED, with one existing
message. -/
def dbEnded : DBState :=
  DBState.mk [ConvRec.mk 0 agentA ConvStatus.ENDED]
    [MessageRec.mk 0 Role.USER [Char.ofNat 104]]

theorem C8_nonactive_rejects_turn_witness :
    ([Char.ofNat 104] ≠ ([] : List Char)) ∧
    findConv dbEnded 0 = some (ConvRec.mk 0 agentA ConvStatus.ENDED) ∧
    ConvStatus.ENDED ≠ ConvStatus.ACTIVE ∧
    postMessageRoute fsNone envTriv dbEnded 0 [Char.ofNat 104] =
      (Except.error (AppErrorRec.mk 400 "Conversation is not active"),
       dbEnded) := by
  refine ⟨by decide, by decide, by decide, ?_⟩
  exact C8_nonactive_rejects_turn fsNone envTriv dbEnded 0 [Char.ofNat 104]
    (ConvRec.mk 0 agentA ConvStatus.ENDED) (by decide) (by decide) (by decide)
